import Mathlib

/-!
Verification of the bakelite-ssh-backend core: the `SimplePath` path model
(`src/rust/src/lib.rs`) and the tar-over-SSH replication pipeline
(`src/rust/src/main.rs`).  Strings are shallowly embedded as `List Char`.
-/

set_option maxRecDepth 4000

namespace Bakelite

/-- Separator predicate used by `SimplePath::split`: Rust splits on `['/', '\\']`. -/
def isSepChar (c : Char) : Bool := c == '/' || c == '\\'

/-- Separator predicate for unix-style paths (the `unix_path` crate): only `/`. -/
def isSlashChar (c : Char) : Bool := c == '/'

/-- Prepend a character onto the first piece of a split result. -/
def consHead (c : Char) : List (List Char) → List (List Char)
  | [] => [[c]]
  | p :: rest => (c :: p) :: rest

/-- Raw splitting on a separator predicate, as Rust's `str::split`: adjacent
separators and boundary separators produce empty pieces. -/
def splitRaw (sep : Char → Bool) : List Char → List (List Char)
  | [] => [[]]
  | c :: cs => if sep c then [] :: splitRaw sep cs else consHead c (splitRaw sep cs)

/-- Splitting with empty pieces dropped, as `split(..).filter(|p| !p.is_empty())`. -/
def splitOn (sep : Char → Bool) (s : List Char) : List (List Char) :=
  (splitRaw sep s).filter (fun p => !p.isEmpty)

/-- The emitted items of `PathJoiner` after the first one: a `"/"` before each
subsequent piece. -/
def pathJoinerTail : List (List Char) → List Char
  | [] => []
  | t :: rs => '/' :: t ++ pathJoinerTail rs

/-- Concatenation of everything `PathJoiner` emits over a piece list: the first
piece, then a single `/` before each further piece. -/
def joinParts : List (List Char) → List Char
  | [] => []
  | s :: rest => s ++ pathJoinerTail rest

/-- Whether a string starts with the canonical separator (`starts_with('/')`). -/
def startsWithSlash (s : List Char) : Bool := s.head? == some '/'

/-- Rendering of a path from its rootedness flag and its segments: the rooted
marker (if any) followed by the canonically joined segments. -/
def renderPath (rooted : Bool) (segs : List (List Char)) : List Char :=
  (if rooted then ['/'] else []) ++ joinParts segs

namespace SimplePath

/-- `SimplePath::split`: split on either recognized separator, drop empties. -/
def split (r : List Char) : List (List Char) := splitOn isSepChar r

/-- `SimplePath::new` (parse): rooted marker if the raw input starts with `/`,
then the `PathJoiner` concatenation of the split segments. -/
def new (r : List Char) : List Char := renderPath (startsWithSlash r) (split r)

/-- `SimplePath::join`: parse the right operand; if it is rooted return it,
otherwise run `PathJoiner` over the non-empty operands. -/
def join (b r : List Char) : List Char :=
  let other := new r
  if startsWithSlash other then other
  else joinParts (([b, other]).filter (fun p => !p.isEmpty))

/-- Index of the last `/` in a string (`str::rfind('/')`). -/
def rfindSlash : List Char → Option Nat
  | [] => none
  | c :: cs =>
    match rfindSlash cs with
    | some i => some (i + 1)
    | none => if c = '/' then some 0 else none

/-- Drop trailing `/` characters (`str::trim_end_matches('/')`). -/
def trimEndSlash (s : List Char) : List Char :=
  (s.reverse.dropWhile (fun c => c = '/')).reverse

theorem rfindSlash_lt {s : List Char} {x : Nat} (h : rfindSlash s = some x) :
    x < s.length := by
  induction s generalizing x with
  | nil => simp [rfindSlash] at h
  | cons c cs ih =>
    simp only [rfindSlash] at h
    cases hcs : rfindSlash cs with
    | some i =>
      rw [hcs] at h
      cases h
      have := ih hcs
      simp
      omega
    | none =>
      rw [hcs] at h
      by_cases hc : c = '/'
      · simp [hc] at h
        subst h
        simp
      · simp [hc] at h

theorem length_dropWhile_le (p : Char → Bool) (l : List Char) :
    (l.dropWhile p).length ≤ l.length := by
  induction l with
  | nil => simp [List.dropWhile]
  | cons c cs ih =>
    rw [List.dropWhile]
    split
    · simp
      omega
    · simp

theorem trimEndSlash_length_le (s : List Char) : (trimEndSlash s).length ≤ s.length := by
  simp only [trimEndSlash, List.length_reverse]
  calc (s.reverse.dropWhile (fun c => c = '/')).length
      ≤ s.reverse.length := length_dropWhile_le _ _
    _ = s.length := by simp

/-- The `PathAncestors` iterator after its first yield: driven by the position
of the last `/` of the current element. -/
def ancestorsFrom (inner : List Char) : List (List Char) :=
  match hfind : rfindSlash inner with
  | none => []
  | some x =>
    if x = 0 then
      (if 1 < inner.length then [['/']] else [])
    else
      trimEndSlash (inner.take x) :: ancestorsFrom (trimEndSlash (inner.take x))
termination_by inner.length
decreasing_by
  have hx := rfindSlash_lt hfind
  have h1 := trimEndSlash_length_le (inner.take x)
  have h2 : (inner.take x).length ≤ x := by
    simp
  omega

/-- `SimplePath::ancestors`: strip trailing separators (keeping the original if
that empties it), yield that element, then walk `ancestorsFrom`. -/
def ancestors (pth : List Char) : List (List Char) :=
  let t := trimEndSlash pth
  let inner := if t.isEmpty then pth else t
  inner :: ancestorsFrom inner

end SimplePath

/-- Modelled from the spec: the expected ancestor sequence, indexed by the
reversed segment list.  Each element drops one trailing segment; a rooted path
ends with the bare root marker, an unrooted one stops at its first segment. -/
def ancExpectedR (ro : Bool) : List (List Char) → List (List Char)
  | [] => [if ro then ['/'] else []]
  | s :: rest =>
    renderPath ro (s :: rest).reverse ::
      (match rest with
       | [] => if ro then [['/']] else []
       | _ :: _ => ancExpectedR ro rest)

/-- Modelled from the spec: the leaf-to-root ancestor sequence of the path with
rootedness `ro` and segments `segs` (an all-separator or root path yields a
single root element; an empty unrooted path yields a single empty element). -/
def ancExpected (ro : Bool) (segs : List (List Char)) : List (List Char) :=
  ancExpectedR ro segs.reverse

/-- The adjacency condition of the normalization invariant: no two adjacent
canonical separators. -/
def SepOk (a b : Char) : Prop := ¬(a = '/' ∧ b = '/')

instance : DecidableRel SepOk := fun a b =>
  inferInstanceAs (Decidable (¬(a = '/' ∧ b = '/')))

/-- A structural decision procedure for the adjacency condition, so that the
invariant evaluates on concrete paths. -/
instance instDecChainSepOk : (l : List Char) → Decidable (List.Chain' SepOk l)
  | [] => isTrue List.chain'_nil
  | [a] => isTrue (List.chain'_singleton a)
  | a :: b :: t =>
    match instDecChainSepOk (b :: t) with
    | isTrue h =>
      if hab : SepOk a b then isTrue (List.chain'_cons.mpr ⟨hab, h⟩)
      else isFalse fun hc => hab (List.chain'_cons.mp hc).1
    | isFalse h => isFalse fun hc => h (List.chain'_cons.mp hc).2

/-- The spec's normalization invariant: only the canonical separator appears,
no empty segments (no two adjacent separators), and no trailing separator
unless the whole path is the bare root separator. -/
def normalizedPath (s : List Char) : Prop :=
  '\\' ∉ s ∧ List.Chain' SepOk s ∧ (s.getLast? = some '/' → s = ['/'])

instance (s : List Char) : Decidable (normalizedPath s) :=
  inferInstanceAs (Decidable
    ('\\' ∉ s ∧ List.Chain' SepOk s ∧ (s.getLast? = some '/' → s = ['/'])))

/-! ## The replication pipeline of `main.rs`

`main.rs` manipulates destination paths with the `unix_path` crate
(`OurPathBuf` wraps `unix_path::PathBuf`); its `join`, `components` and
`ancestors` are modelled below with ordinary unix slash-path semantics. -/

/-- Components of a unix path: split on `/`, dropping empty pieces. -/
def upComps (p : List Char) : List (List Char) := splitOn isSlashChar p

/-- `unix_path::PathBuf::join` (via `OurPathBuf::join`): an absolute argument
replaces the base entirely; otherwise the argument is appended with a single
separator as needed. -/
def upJoin (base seg : List Char) : List Char :=
  if startsWithSlash seg then seg
  else if base.isEmpty then seg
  else if base.getLast? = some '/' then base ++ seg
  else base ++ '/' :: seg

/-- The tail of `unix_path::Path::ancestors` (everything after the path
itself), indexed by the reversed component list: each parent drops the last
component, ending at the root (absolute) or the empty path (relative). -/
def upAncTailR (abs : Bool) : List (List Char) → List (List Char)
  | [] => []
  | _ :: rest => renderPath abs rest.reverse :: upAncTailR abs rest

/-- `unix_path::Path::ancestors`: the path itself, then each parent in turn. -/
def upAncestors (p : List Char) : List (List Char) :=
  p :: upAncTailR (startsWithSlash p) (upComps p).reverse

/-- The ancestor list the pipeline materializes for a destination:
`dst.ancestors().skip(1)` collected, reversed to root-to-leaf order, with
empty paths dropped (`main.rs`). -/
def ancestorsOf (base entPath : List Char) : List (List Char) :=
  (((upAncestors (upJoin base entPath)).drop 1).reverse).filter (fun p => !p.isEmpty)

/-- Failure kinds reported by the remote SFTP/SCP collaborator. -/
inductive ErrKind where
  | noSuchFile
  | permissionDenied
  | alreadyExists
  | failure
deriving DecidableEq, Repr

/-- The remote session collaborator: `none` means the call succeeded, `some k`
that it failed with kind `k`. -/
structure Remote where
  stat : List Char → Option ErrKind
  mkdir : List Char → Option ErrKind
  scpOpen : List Char → Option ErrKind
  scpClose : List Char → Option ErrKind

/-- One container (tar) entry: its type tag reduced to the file test the code
performs, its stored path, its declared size, and the number of bytes its
content stream actually delivers through the copy. -/
structure Entry where
  isFile : Bool
  path : List Char
  size : Nat
  actual : Nat
deriving DecidableEq, Repr

/-- Remote calls traced by a pipeline run. -/
inductive Ev where
  | statEv (p : List Char)
  | mkdirEv (p : List Char) (mode : Nat)
  | scpOpenEv (p : List Char) (mode : Nat) (size : Nat)
  | copyEv (n : Nat)
deriving DecidableEq, Repr

/-- Pipeline-level errors: propagated remote failures, channel-open failures,
and the size-mismatch error carrying both byte counts. -/
inductive PErr where
  | remoteErr (k : ErrKind)
  | openErr (k : ErrKind)
  | sizeMismatch (expected actual : Nat)
deriving DecidableEq, Repr

/-- Result of the directory-materialization loop. -/
structure DirRes where
  evs : List Ev
  seen : List (List Char)
  err : Option ErrKind
deriving DecidableEq, Repr

/-- The directory-materialization loop of `main.rs`: for each ancestor, skip it
when empty or cached; otherwise `stat` it, on any stat failure `mkdir` it with
mode `0o755` (propagating any mkdir failure), and record it in the cache. -/
def ensureDirs (rem : Remote) : List (List Char) → List (List Char) → DirRes
  | seen, [] => ⟨[], seen, none⟩
  | seen, p :: rest =>
    if p.isEmpty || p ∈ seen then ensureDirs rem seen rest
    else
      match rem.stat p with
      | none =>
        let r := ensureDirs rem (p :: seen) rest
        ⟨.statEv p :: r.evs, r.seen, r.err⟩
      | some _ =>
        match rem.mkdir p with
        | none =>
          let r := ensureDirs rem (p :: seen) rest
          ⟨.statEv p :: .mkdirEv p 493 :: r.evs, r.seen, r.err⟩
        | some k => ⟨[.statEv p, .mkdirEv p 493], seen, some k⟩

/-- Result of processing one container entry. -/
structure StepRes where
  evs : List Ev
  seen : List (List Char)
  err : Option PErr
deriving DecidableEq, Repr

/-- Processing of one container entry in `main.rs`: skip non-file entries;
materialize the destination's ancestors; open the SCP channel with mode
`0o644` announcing the declared size; copy the content; close; then fail with
the expected and actual counts if they differ. -/
def procEntry (rem : Remote) (base : List Char) (seen : List (List Char))
    (ent : Entry) : StepRes :=
  if ent.isFile = false then ⟨[], seen, none⟩
  else
    let dst := upJoin base ent.path
    let d := ensureDirs rem seen (ancestorsOf base ent.path)
    match d.err with
    | some k => ⟨d.evs, d.seen, some (.remoteErr k)⟩
    | none =>
      match rem.scpOpen dst with
      | some k => ⟨d.evs ++ [.scpOpenEv dst 420 ent.size], d.seen, some (.openErr k)⟩
      | none =>
        match rem.scpClose dst with
        | some k =>
          ⟨d.evs ++ [.scpOpenEv dst 420 ent.size, .copyEv ent.actual], d.seen,
            some (.remoteErr k)⟩
        | none =>
          if ent.actual = ent.size then
            ⟨d.evs ++ [.scpOpenEv dst 420 ent.size, .copyEv ent.actual], d.seen, none⟩
          else
            ⟨d.evs ++ [.scpOpenEv dst 420 ent.size, .copyEv ent.actual], d.seen,
              some (.sizeMismatch ent.size ent.actual)⟩

/-- The entry loop of `main.rs` (`try_for_each` over the archive): entries are
processed strictly in order and the first error aborts the remaining ones. -/
def runPipe (rem : Remote) (base : List Char) :
    List Entry → List (List Char) → List Ev × Option PErr
  | [], _ => ([], none)
  | e :: es, seen =>
    let s := procEntry rem base seen e
    match s.err with
    | some pe => (s.evs, some pe)
    | none =>
      let r := runPipe rem base es s.seen
      (s.evs ++ r.1, r.2)

/-- The stat targets of a trace. -/
def statTargets (evs : List Ev) : List (List Char) :=
  evs.filterMap fun e =>
    match e with
    | .statEv p => some p
    | _ => none

/-- The mkdir targets of a trace. -/
def mkdirTargets (evs : List Ev) : List (List Char) :=
  evs.filterMap fun e =>
    match e with
    | .mkdirEv p _ => some p
    | _ => none

/-- A remote on which every call succeeds. -/
def remAllOk : Remote := ⟨fun _ => none, fun _ => none, fun _ => none, fun _ => none⟩

/-- A remote whose stat always reports not-found and whose mkdir always
reports already-exists. -/
def remMkdirAE : Remote :=
  ⟨fun _ => some .noSuchFile, fun _ => some .alreadyExists, fun _ => none, fun _ => none⟩

/-- A remote whose stat always fails with a non-not-found condition and whose
mkdir always succeeds. -/
def remStatPD : Remote :=
  ⟨fun _ => some .permissionDenied, fun _ => none, fun _ => none, fun _ => none⟩

/-- The spec's end-to-end scenario entry: a regular file at `a/b/c.txt`
declaring 4096 bytes, fully delivered. -/
def entDemo : Entry := ⟨true, "a/b/c.txt".toList, 4096, 4096⟩

/-- The truncated variant of the scenario entry: only 4000 of the declared
4096 bytes are delivered. -/
def entShort : Entry := ⟨true, "a/b/c.txt".toList, 4096, 4000⟩

/-- A regular-file entry whose stored path is absolute. -/
def entAbs : Entry := ⟨true, "/etc/passwd".toList, 7, 7⟩

/-- A well-formed segment: non-empty and free of both separator characters. -/
def SegOK (s : List Char) : Prop := s ≠ [] ∧ ∀ c ∈ s, isSepChar c = false

/-! ## Splitting lemmas -/

theorem isSepChar_eq_false {c : Char} :
    isSepChar c = false ↔ c ≠ '/' ∧ c ≠ '\\' := by
  simp [isSepChar]

theorem splitRaw_ne_nil (sep : Char → Bool) (s : List Char) : splitRaw sep s ≠ [] := by
  induction s with
  | nil => simp [splitRaw]
  | cons c cs ih =>
    simp only [splitRaw]
    split
    · simp
    · cases h : splitRaw sep cs <;> simp [consHead]

theorem mem_splitRaw_sepFree (sep : Char → Bool) :
    ∀ (s : List Char), ∀ x ∈ splitRaw sep s, ∀ c ∈ x, sep c = false := by
  intro s
  induction s with
  | nil =>
    intro x hx c hc
    simp [splitRaw] at hx
    subst hx
    simp at hc
  | cons a as ih =>
    intro x hx c hc
    simp only [splitRaw] at hx
    by_cases ha : sep a = true
    · rw [if_pos ha] at hx
      rcases List.mem_cons.mp hx with h | h
      · subst h
        simp at hc
      · exact ih x h c hc
    · rw [if_neg ha] at hx
      cases hsr : splitRaw sep as with
      | nil => exact absurd hsr (splitRaw_ne_nil sep as)
      | cons p rest =>
        rw [hsr] at hx
        simp only [consHead] at hx
        rcases List.mem_cons.mp hx with h | h
        · subst h
          rcases List.mem_cons.mp hc with h | h
          · subst h
            simpa using ha
          · exact ih p (by rw [hsr]; exact List.mem_cons_self p rest) c h
        · exact ih x (by rw [hsr]; exact List.mem_cons_of_mem p h) c hc

theorem consHead_append {c : Char} {l m : List (List Char)} (h : l ≠ []) :
    consHead c (l ++ m) = consHead c l ++ m := by
  cases l with
  | nil => exact absurd rfl h
  | cons p r => rfl

theorem splitRaw_append_sep {sep : Char → Bool} {d : Char} (hd : sep d = true)
    (a b : List Char) :
    splitRaw sep (a ++ d :: b) = splitRaw sep a ++ splitRaw sep b := by
  induction a with
  | nil => simp [splitRaw, hd]
  | cons c a' ih =>
    simp only [List.cons_append, splitRaw, List.append_eq]
    split
    · rw [ih]
      rfl
    · rw [ih, consHead_append (splitRaw_ne_nil sep a')]

theorem splitRaw_sepFree {sep : Char → Bool} :
    ∀ {s : List Char}, (∀ c ∈ s, sep c = false) → splitRaw sep s = [s] := by
  intro s
  induction s with
  | nil => intro _; rfl
  | cons c cs ih =>
    intro h
    have hc : sep c = false := h c (List.mem_cons_self c cs)
    have hcs := ih (fun x hx => h x (List.mem_cons_of_mem c hx))
    simp [splitRaw, hc, hcs, consHead]

theorem splitOn_append_sep {sep : Char → Bool} {d : Char} (hd : sep d = true)
    (a b : List Char) :
    splitOn sep (a ++ d :: b) = splitOn sep a ++ splitOn sep b := by
  simp [splitOn, splitRaw_append_sep hd]

theorem splitOn_sep_cons {sep : Char → Bool} {d : Char} (hd : sep d = true)
    (b : List Char) : splitOn sep (d :: b) = splitOn sep b := by
  have := splitOn_append_sep hd [] b
  simpa [splitOn, splitRaw] using this

theorem splitOn_nil (sep : Char → Bool) : splitOn sep [] = [] := rfl

theorem splitOn_sepFree {sep : Char → Bool} {s : List Char}
    (h : ∀ c ∈ s, sep c = false) (hne : s ≠ []) : splitOn sep s = [s] := by
  simp [splitOn, splitRaw_sepFree h, hne]

theorem mem_splitOn {sep : Char → Bool} {s x : List Char} (hx : x ∈ splitOn sep s) :
    x ≠ [] ∧ ∀ c ∈ x, sep c = false := by
  simp only [splitOn, List.mem_filter] at hx
  refine ⟨by simpa using hx.2, fun c hc => mem_splitRaw_sepFree sep s x hx.1 c hc⟩

theorem mem_split_segOK {r x : List Char} (hx : x ∈ SimplePath.split r) : SegOK x := by
  have := mem_splitOn hx
  exact ⟨this.1, this.2⟩

/-! ## `PathJoiner` concatenation lemmas -/

theorem joinParts_nil : joinParts [] = [] := rfl

theorem joinParts_singleton (s : List Char) : joinParts [s] = s := by
  simp [joinParts, pathJoinerTail]

theorem joinParts_cons_cons (s t : List Char) (rs : List (List Char)) :
    joinParts (s :: t :: rs) = s ++ '/' :: joinParts (t :: rs) := rfl

theorem joinParts_ne_nil {segs : List (List Char)} (hne : segs ≠ [])
    (h : ∀ s ∈ segs, SegOK s) : joinParts segs ≠ [] := by
  cases segs with
  | nil => exact absurd rfl hne
  | cons s rest =>
    have hs : s ≠ [] := (h s (List.mem_cons_self s rest)).1
    cases s with
    | nil => exact absurd rfl hs
    | cons c s' => simp [joinParts]

theorem pathJoinerTail_append_singleton (l : List (List Char)) (t : List Char) :
    pathJoinerTail (l ++ [t]) = pathJoinerTail l ++ '/' :: t := by
  induction l with
  | nil => simp [pathJoinerTail]
  | cons u l' ih => simp [pathJoinerTail, ih]

theorem joinParts_append_singleton {l : List (List Char)} (t : List Char)
    (h : l ≠ []) : joinParts (l ++ [t]) = joinParts l ++ '/' :: t := by
  cases l with
  | nil => exact absurd rfl h
  | cons x l' => simp [joinParts, pathJoinerTail_append_singleton]

theorem chain'_of_noSlash {s : List Char} (h : ∀ c ∈ s, c ≠ '/') :
    List.Chain' SepOk s := by
  induction s with
  | nil => simp
  | cons a t ih =>
    rw [List.chain'_cons']
    constructor
    · intro y _
      exact fun hc => absurd hc.1 (h a (List.mem_cons_self a t))
    · exact ih (fun c hc => h c (List.mem_cons_of_mem a hc))

theorem joinParts_facts :
    ∀ (segs : List (List Char)), (∀ s ∈ segs, SegOK s) →
      '\\' ∉ joinParts segs ∧ List.Chain' SepOk (joinParts segs) ∧
      (joinParts segs).head? ≠ some '/' ∧ (joinParts segs).getLast? ≠ some '/' := by
  intro segs
  induction segs with
  | nil => intro _; simp [joinParts_nil]
  | cons s rest ih =>
    intro h
    have hs : SegOK s := h s (List.mem_cons_self s rest)
    have hsSlash : ∀ c ∈ s, c ≠ '/' := fun c hc =>
      ((isSepChar_eq_false).mp (hs.2 c hc)).1
    have hsBack : ∀ c ∈ s, c ≠ '\\' := fun c hc =>
      ((isSepChar_eq_false).mp (hs.2 c hc)).2
    cases rest with
    | nil =>
      rw [joinParts_singleton]
      refine ⟨fun hm => absurd rfl (hsBack '\\' hm), chain'_of_noSlash hsSlash, ?_, ?_⟩
      · cases s with
        | nil => simp
        | cons c s' =>
          simp only [List.head?_cons]
          intro hc
          exact hsSlash c (List.mem_cons_self c s') (by injection hc)
      · intro hlast
        obtain ⟨hne, hx⟩ := List.mem_getLast?_eq_getLast hlast
        exact hsSlash '/' (hx ▸ List.getLast_mem hne) rfl
    | cons t rs =>
      have ihr := ih (fun x hx => h x (List.mem_cons_of_mem s hx))
      obtain ⟨ihBack, ihChain, ihHead, ihLast⟩ := ihr
      have hJne : joinParts (t :: rs) ≠ [] :=
        joinParts_ne_nil (by simp) (fun x hx => h x (List.mem_cons_of_mem s hx))
      rw [joinParts_cons_cons]
      refine ⟨?_, ?_, ?_, ?_⟩
      · intro hm
        rcases List.mem_append.mp hm with hm | hm
        · exact hsBack '\\' hm rfl
        · rcases List.mem_cons.mp hm with hm | hm
          · exact absurd hm.symm (by decide)
          · exact ihBack hm
      · rw [List.chain'_append]
        refine ⟨chain'_of_noSlash hsSlash, ?_, ?_⟩
        · rw [List.chain'_cons']
          refine ⟨?_, ihChain⟩
          intro y hy hc
          rw [hc.2] at hy
          exact ihHead (Option.mem_def.mp hy)
        · intro x hx y hy hc
          obtain ⟨hne, hx'⟩ := List.mem_getLast?_eq_getLast hx
          exact hsSlash x (hx' ▸ List.getLast_mem hne) hc.1
      · cases s with
        | nil => exact absurd rfl hs.1
        | cons c s' =>
          simp only [List.cons_append, List.head?_cons]
          intro hc
          exact hsSlash c (List.mem_cons_self c s') (by injection hc)
      · rw [List.getLast?_append_cons]
        cases hJ : joinParts (t :: rs) with
        | nil => exact absurd hJ hJne
        | cons j js =>
          rw [List.getLast?_cons_cons]
          rw [hJ] at ihLast
          exact ihLast

/-! ## Render-level lemmas for the path model -/

theorem startsWithSlash_iff {s : List Char} :
    startsWithSlash s = true ↔ s.head? = some '/' := by
  simp [startsWithSlash]

theorem startsWithSlash_false_iff {s : List Char} :
    startsWithSlash s = false ↔ s.head? ≠ some '/' := by
  simp [startsWithSlash]

theorem isSepChar_slash : isSepChar '/' = true := rfl

theorem renderPath_true_def (segs : List (List Char)) :
    renderPath true segs = '/' :: joinParts segs := rfl

theorem renderPath_false_def (segs : List (List Char)) :
    renderPath false segs = joinParts segs := rfl

theorem renderPath_startsWithSlash {ro : Bool} {segs : List (List Char)}
    (hv : ∀ s ∈ segs, SegOK s) :
    startsWithSlash (renderPath ro segs) = ro := by
  cases ro with
  | true => rfl
  | false =>
    rw [renderPath_false_def]
    cases segs with
    | nil => rfl
    | cons s rest =>
      have hs : SegOK s := hv s (List.mem_cons_self s rest)
      cases s with
      | nil => exact absurd rfl hs.1
      | cons c s' =>
        have hc : c ≠ '/' :=
          (isSepChar_eq_false.mp (hs.2 c (List.mem_cons_self c s'))).1
        rw [joinParts]
        rw [startsWithSlash_false_iff]
        simpa using hc

theorem split_joinParts {segs : List (List Char)} (hv : ∀ s ∈ segs, SegOK s) :
    splitOn isSepChar (joinParts segs) = segs := by
  induction segs with
  | nil => rfl
  | cons s rest ih =>
    have hs : SegOK s := hv s (List.mem_cons_self s rest)
    have hfree : ∀ c ∈ s, isSepChar c = false := hs.2
    cases rest with
    | nil =>
      rw [joinParts_singleton]
      exact splitOn_sepFree hfree hs.1
    | cons t rs =>
      rw [joinParts_cons_cons, splitOn_append_sep isSepChar_slash,
        splitOn_sepFree hfree hs.1, ih (fun x hx => hv x (List.mem_cons_of_mem s hx))]
      rfl

theorem split_renderPath {ro : Bool} {segs : List (List Char)}
    (hv : ∀ s ∈ segs, SegOK s) :
    SimplePath.split (renderPath ro segs) = segs := by
  cases ro with
  | true =>
    rw [SimplePath.split, renderPath_true_def, splitOn_sep_cons isSepChar_slash]
    exact split_joinParts hv
  | false =>
    rw [SimplePath.split, renderPath_false_def]
    exact split_joinParts hv

theorem new_eq_render (r : List Char) :
    SimplePath.new r = renderPath (startsWithSlash r) (SimplePath.split r) := rfl

theorem new_startsWithSlash (r : List Char) :
    startsWithSlash (SimplePath.new r) = startsWithSlash r :=
  renderPath_startsWithSlash (fun x hx => mem_split_segOK hx)

theorem new_idem (r : List Char) :
    SimplePath.new (SimplePath.new r) = SimplePath.new r := by
  rw [new_eq_render (SimplePath.new r), new_startsWithSlash,
    show SimplePath.split (SimplePath.new r) = SimplePath.split r from
      split_renderPath (fun x hx => mem_split_segOK hx)]
  rfl

theorem normalized_getLast_ne {s : List Char} (h : normalizedPath s)
    (hne : s ≠ ['/']) : s.getLast? ≠ some '/' :=
  fun hl => hne (h.2.2 hl)

theorem renderPath_normalized {ro : Bool} {segs : List (List Char)}
    (hv : ∀ s ∈ segs, SegOK s) : normalizedPath (renderPath ro segs) := by
  obtain ⟨hBack, hChain, hHead, hLast⟩ := joinParts_facts segs hv
  cases ro with
  | false =>
    rw [renderPath_false_def]
    exact ⟨hBack, hChain, fun hl => absurd hl hLast⟩
  | true =>
    rw [renderPath_true_def]
    refine ⟨?_, ?_, ?_⟩
    · intro hm
      rcases List.mem_cons.mp hm with hm | hm
      · exact absurd hm (by decide)
      · exact hBack hm
    · rw [List.chain'_cons']
      refine ⟨?_, hChain⟩
      intro y hy hc
      rw [hc.2] at hy
      exact hHead (Option.mem_def.mp hy)
    · intro hl
      cases hJ : joinParts segs with
      | nil => rfl
      | cons j js =>
        rw [hJ, List.getLast?_cons_cons] at hl
        rw [hJ] at hLast
        exact absurd hl hLast

theorem new_normalized (r : List Char) : normalizedPath (SimplePath.new r) :=
  renderPath_normalized (fun x hx => mem_split_segOK hx)

theorem filter_pair (b o : List Char) :
    List.filter (fun p => !p.isEmpty) [b, o] =
      (if b.isEmpty = true then [] else [b]) ++
        (if o.isEmpty = true then [] else [o]) := by
  cases b <;> cases o <;> simp [List.filter]

theorem join_normalized {b : List Char} (r : List Char)
    (hb : normalizedPath b) (hroot : b ≠ ['/']) :
    normalizedPath (SimplePath.join b r) := by
  rw [SimplePath.join]
  cases hsw : startsWithSlash (SimplePath.new r) with
  | true =>
    simp only [hsw, if_true]
    exact new_normalized r
  | false =>
    simp only [hsw, Bool.false_eq_true, if_false]
    have hother := new_normalized r
    rw [filter_pair]
    cases hbe : b.isEmpty with
    | true =>
      have hb0 : b = [] := by simpa using hbe
      rw [if_pos rfl]
      cases hoe : (SimplePath.new r).isEmpty with
      | true =>
        rw [if_pos rfl]
        exact ⟨by simp [joinParts], by simp [joinParts], by simp [joinParts]⟩
      | false =>
        rw [if_neg (by simp [hoe])]
        rw [List.nil_append, joinParts_singleton]
        exact hother
    | false =>
      have hb0 : b ≠ [] := by simpa using hbe
      rw [if_neg (by simp [hbe])]
      cases hoe : (SimplePath.new r).isEmpty with
      | true =>
        rw [if_pos rfl, List.append_nil, joinParts_singleton]
        exact hb
      | false =>
        have ho0 : SimplePath.new r ≠ [] := by simpa using hoe
        have hohead : (SimplePath.new r).head? ≠ some '/' :=
          startsWithSlash_false_iff.mp hsw
        rw [if_neg (by simp [hoe])]
        have hjp : joinParts ([b] ++ [SimplePath.new r]) =
            b ++ '/' :: SimplePath.new r := by
          rw [List.singleton_append, joinParts_cons_cons, joinParts_singleton]
        rw [hjp]
        have hbLast : b.getLast? ≠ some '/' := normalized_getLast_ne hb hroot
        have hoLast : (SimplePath.new r).getLast? ≠ some '/' := by
          refine normalized_getLast_ne hother ?_
          intro hcontra
          rw [hcontra] at hohead
          exact hohead rfl
        refine ⟨?_, ?_, ?_⟩
        · intro hm
          rcases List.mem_append.mp hm with hm | hm
          · exact hb.1 hm
          · rcases List.mem_cons.mp hm with hm | hm
            · exact absurd hm.symm (by decide)
            · exact hother.1 hm
        · rw [List.chain'_append]
          refine ⟨hb.2.1, ?_, ?_⟩
          · rw [List.chain'_cons']
            refine ⟨?_, hother.2.1⟩
            intro y hy hc
            rw [hc.2] at hy
            exact hohead (Option.mem_def.mp hy)
          · intro x hx y hy hc
            rw [hc.1] at hx
            exact hbLast (Option.mem_def.mp hx)
        · intro hl
          rw [List.getLast?_append_cons] at hl
          cases hO : SimplePath.new r with
          | nil => exact absurd hO ho0
          | cons o os =>
            rw [hO, List.getLast?_cons_cons] at hl
            rw [hO] at hoLast
            exact absurd hl hoLast

/-! ## Characterization of the ancestors iterator -/

theorem ancestorsFrom_none {inner : List Char} (h : SimplePath.rfindSlash inner = none) :
    SimplePath.ancestorsFrom inner = [] := by
  rw [SimplePath.ancestorsFrom.eq_def, h]

theorem ancestorsFrom_zero {inner : List Char} (h : SimplePath.rfindSlash inner = some 0) :
    SimplePath.ancestorsFrom inner = if 1 < inner.length then [['/']] else [] := by
  rw [SimplePath.ancestorsFrom.eq_def, h]
  rfl

theorem ancestorsFrom_pos {inner : List Char} {x : Nat}
    (h : SimplePath.rfindSlash inner = some x) (hx : x ≠ 0) :
    SimplePath.ancestorsFrom inner =
      SimplePath.trimEndSlash (inner.take x) ::
        SimplePath.ancestorsFrom (SimplePath.trimEndSlash (inner.take x)) := by
  rw [SimplePath.ancestorsFrom.eq_def, h]
  simp [hx]

theorem rfindSlash_noSlash : ∀ {s : List Char}, '/' ∉ s → SimplePath.rfindSlash s = none := by
  intro s
  induction s with
  | nil => intro _; rfl
  | cons c cs ih =>
    intro h
    have hc : c ≠ '/' := fun hc => h (hc ▸ List.mem_cons_self c cs)
    simp only [SimplePath.rfindSlash]
    rw [ih (fun hm => h (List.mem_cons_of_mem c hm))]
    simp [hc]

theorem rfindSlash_append_slash {b : List Char} (hb : '/' ∉ b) :
    ∀ (a : List Char), SimplePath.rfindSlash (a ++ '/' :: b) = some a.length := by
  intro a
  induction a with
  | nil =>
    rw [List.nil_append]
    simp only [SimplePath.rfindSlash]
    rw [rfindSlash_noSlash hb]
    simp
  | cons c a' ih =>
    rw [List.cons_append]
    simp only [SimplePath.rfindSlash]
    rw [ih]
    simp

theorem trimEndSlash_no_trailing {s : List Char} (h : s.getLast? ≠ some '/') :
    SimplePath.trimEndSlash s = s := by
  rw [SimplePath.trimEndSlash]
  cases hrev : s.reverse with
  | nil =>
    have : s = [] := by simpa using congrArg List.reverse hrev
    subst this
    rfl
  | cons c t =>
    have hc : c ≠ '/' := by
      intro hc
      apply h
      rw [← List.head?_reverse, hrev, hc]
      rfl
    rw [List.dropWhile_cons, if_neg (by simpa using hc), ← hrev, List.reverse_reverse]

theorem renderPath_getLast_ne {ro : Bool} {segs : List (List Char)}
    (hne : segs ≠ []) (hv : ∀ s ∈ segs, SegOK s) :
    (renderPath ro segs).getLast? ≠ some '/' := by
  obtain ⟨-, -, -, hLast⟩ := joinParts_facts segs hv
  cases ro with
  | false =>
    rw [renderPath_false_def]
    exact hLast
  | true =>
    rw [renderPath_true_def]
    cases hJ : joinParts segs with
    | nil => exact absurd hJ (joinParts_ne_nil hne hv)
    | cons j js =>
      rw [List.getLast?_cons_cons]
      rw [hJ] at hLast
      exact hLast

theorem renderPath_ne_nil {ro : Bool} {segs : List (List Char)}
    (h : segs ≠ []) (hv : ∀ s ∈ segs, SegOK s) : renderPath ro segs ≠ [] := by
  cases ro with
  | true =>
    rw [renderPath_true_def]
    simp
  | false =>
    rw [renderPath_false_def]
    exact joinParts_ne_nil h hv

theorem renderPath_append_singleton {init : List (List Char)} (t : List Char)
    (h : init ≠ []) (ro : Bool) :
    renderPath ro (init ++ [t]) = renderPath ro init ++ '/' :: t := by
  rw [renderPath, renderPath, joinParts_append_singleton t h, List.append_assoc]

theorem ancExpectedR_nil (ro : Bool) : ancExpectedR ro [] = [if ro then ['/'] else []] := rfl

theorem ancExpectedR_one (ro : Bool) (s : List Char) :
    ancExpectedR ro [s] = renderPath ro [s] :: (if ro then [['/']] else []) := rfl

theorem ancExpectedR_cons_cons (ro : Bool) (s t : List Char) (rs : List (List Char)) :
    ancExpectedR ro (s :: t :: rs) =
      renderPath ro (s :: t :: rs).reverse :: ancExpectedR ro (t :: rs) := rfl

theorem ancExpected_cons {ro : Bool} {segs : List (List Char)} (h : segs ≠ []) :
    ancExpected ro segs =
      renderPath ro segs ::
        (if segs.dropLast = [] then (if ro then [['/']] else [])
         else ancExpected ro segs.dropLast) := by
  cases hrev : segs.reverse with
  | nil => exact absurd (by simpa using congrArg List.reverse hrev) h
  | cons l ir =>
    have hsegs : segs = ir.reverse ++ [l] := by
      have := congrArg List.reverse hrev
      simpa using this
    cases ir with
    | nil =>
      have hseg1 : segs = [l] := by simpa using hsegs
      subst hseg1
      rw [ancExpected]
      simp [ancExpectedR_one]
    | cons x xs =>
      have hdl : segs.dropLast = (x :: xs).reverse := by
        rw [hsegs, List.dropLast_concat]
      have hne2 : segs.dropLast ≠ [] := by
        rw [hdl]
        simp
      rw [ancExpected, hrev, ancExpectedR_cons_cons, if_neg hne2]
      congr 1
      · congr 1
        rw [← hrev, List.reverse_reverse]
      · rw [ancExpected, hdl, List.reverse_reverse]

theorem ancestorsFrom_render (ro : Bool) (segs : List (List Char)) :
    (∀ s ∈ segs, SegOK s) → segs ≠ [] →
    SimplePath.ancestorsFrom (renderPath ro segs) =
      (if segs.dropLast = [] then (if ro then [['/']] else [])
       else ancExpected ro segs.dropLast) := by
  induction segs using List.reverseRecOn with
  | nil => intro _ h; exact absurd rfl h
  | append_singleton init lastSeg ih =>
    intro hv _
    have hlv : SegOK lastSeg := hv lastSeg (by simp)
    have hlnoslash : '/' ∉ lastSeg := by
      intro hm
      have := hlv.2 '/' hm
      rw [isSepChar_slash] at this
      simp at this
    rw [List.dropLast_concat]
    by_cases h0 : init = []
    · subst h0
      rw [if_pos rfl, List.nil_append]
      cases ro with
      | true =>
        rw [renderPath_true_def, joinParts_singleton]
        have hfind : SimplePath.rfindSlash ('/' :: lastSeg) = some 0 := by
          have := rfindSlash_append_slash hlnoslash []
          simpa using this
        rw [ancestorsFrom_zero hfind]
        have hlen : 0 < lastSeg.length := List.length_pos.mpr hlv.1
        rw [if_pos (by simp; omega)]
        rfl
      | false =>
        rw [renderPath_false_def, joinParts_singleton]
        rw [ancestorsFrom_none (rfindSlash_noSlash hlnoslash)]
        rfl
    · rw [if_neg h0]
      have hiv : ∀ s ∈ init, SegOK s := fun s hs => hv s (by simp [hs])
      have hA_ne : renderPath ro init ≠ [] := renderPath_ne_nil h0 hiv
      have hA_last : (renderPath ro init).getLast? ≠ some '/' := renderPath_getLast_ne h0 hiv
      rw [renderPath_append_singleton lastSeg h0 ro]
      have hfind := rfindSlash_append_slash hlnoslash (renderPath ro init)
      have hxne : (renderPath ro init).length ≠ 0 := by
        intro hc
        exact hA_ne (List.length_eq_zero.mp hc)
      rw [ancestorsFrom_pos hfind hxne, List.take_left,
        trimEndSlash_no_trailing hA_last, ih hiv h0, ancExpected_cons h0]

theorem ancestors_eq_self_cons {p : List Char} (h : p.getLast? ≠ some '/') :
    SimplePath.ancestors p = p :: SimplePath.ancestorsFrom p := by
  unfold SimplePath.ancestors
  simp only [trimEndSlash_no_trailing h, ite_self]

theorem ancestors_root : SimplePath.ancestors ['/'] = [['/']] := by
  show ['/'] :: SimplePath.ancestorsFrom ['/'] = [['/']]
  rw [ancestorsFrom_zero (by decide)]
  rfl

theorem ancestors_nil_path : SimplePath.ancestors [] = [[]] := by
  show ([] : List Char) :: SimplePath.ancestorsFrom [] = [[]]
  rw [ancestorsFrom_none (by decide)]

theorem ancestors_new_eq (r : List Char) :
    SimplePath.ancestors (SimplePath.new r) =
      ancExpected (startsWithSlash r) (SimplePath.split r) := by
  have hv : ∀ s ∈ SimplePath.split r, SegOK s := fun x hx => mem_split_segOK hx
  rw [new_eq_render]
  by_cases h0 : SimplePath.split r = []
  · rw [h0]
    cases hro : startsWithSlash r with
    | true =>
      rw [show renderPath true ([] : List (List Char)) = ['/'] from rfl, ancestors_root]
      rfl
    | false =>
      rw [show renderPath false ([] : List (List Char)) = [] from rfl, ancestors_nil_path]
      rfl
  · have hlast := @renderPath_getLast_ne (startsWithSlash r) (SimplePath.split r) h0 hv
    rw [ancestors_eq_self_cons hlast, ancestorsFrom_render _ _ hv h0, ancExpected_cons h0]


/-! ## Pipeline lemmas -/

theorem statTargets_nil : statTargets [] = [] := rfl

theorem statTargets_append (a b : List Ev) :
    statTargets (a ++ b) = statTargets a ++ statTargets b :=
  List.filterMap_append a b _

theorem mkdirTargets_append (a b : List Ev) :
    mkdirTargets (a ++ b) = mkdirTargets a ++ mkdirTargets b :=
  List.filterMap_append a b _

theorem ensureDirs_err_none (rem : Remote) (hmk : ∀ p, rem.mkdir p = none) :
    ∀ (ps seen : List (List Char)), (ensureDirs rem seen ps).err = none := by
  intro ps
  induction ps with
  | nil => intro seen; rfl
  | cons p rest ih =>
    intro seen
    simp only [ensureDirs]
    split
    · exact ih seen
    · cases hst : rem.stat p with
      | none => exact ih (p :: seen)
      | some k =>
        rw [hmk p]
        exact ih (p :: seen)

theorem ensureDirs_err_some (rem : Remote) :
    ∀ (ps seen : List (List Char)) (k : ErrKind),
      (ensureDirs rem seen ps).err = some k →
      ∃ p, rem.stat p ≠ none ∧ rem.mkdir p = some k := by
  intro ps
  induction ps with
  | nil =>
    intro seen k h
    exact absurd h (by simp [ensureDirs])
  | cons p rest ih =>
    intro seen k h
    simp only [ensureDirs] at h
    split at h
    · exact ih seen k h
    · cases hst : rem.stat p with
      | none =>
        rw [hst] at h
        exact ih (p :: seen) k h
      | some k1 =>
        rw [hst] at h
        cases hmk : rem.mkdir p with
        | none =>
          rw [hmk] at h
          exact ih (p :: seen) k h
        | some k2 =>
          rw [hmk] at h
          have hk : some k2 = some k := h
          refine ⟨p, by rw [hst]; simp, ?_⟩
          rw [hmk]
          exact hk

theorem ensureDirs_mkdir_mem (rem : Remote) :
    ∀ (ps seen : List (List Char)) (p : List Char) (m : Nat),
      Ev.mkdirEv p m ∈ (ensureDirs rem seen ps).evs →
      m = 493 ∧ rem.stat p ≠ none := by
  intro ps
  induction ps with
  | nil =>
    intro seen p m h
    exact absurd h (by simp [ensureDirs])
  | cons q rest ih =>
    intro seen p m h
    simp only [ensureDirs] at h
    split at h
    · exact ih seen p m h
    · cases hst : rem.stat q with
      | none =>
        rw [hst] at h
        have h2 : Ev.mkdirEv p m ∈
            Ev.statEv q :: (ensureDirs rem (q :: seen) rest).evs := h
        rcases List.mem_cons.mp h2 with h3 | h3
        · exact absurd h3 (by simp)
        · exact ih (q :: seen) p m h3
      | some k1 =>
        rw [hst] at h
        cases hmk : rem.mkdir q with
        | none =>
          rw [hmk] at h
          have h2 : Ev.mkdirEv p m ∈
              Ev.statEv q :: Ev.mkdirEv q 493 ::
                (ensureDirs rem (q :: seen) rest).evs := h
          rcases List.mem_cons.mp h2 with h3 | h3
          · exact absurd h3 (by simp)
          rcases List.mem_cons.mp h3 with h4 | h4
          · have hpq : p = q ∧ m = 493 := by
              constructor <;> injection h4 <;> simp_all
            exact ⟨hpq.2, by rw [hpq.1, hst]; simp⟩
          · exact ih (q :: seen) p m h4
        | some k2 =>
          rw [hmk] at h
          have h2 : Ev.mkdirEv p m ∈
              [Ev.statEv q, Ev.mkdirEv q 493] := h
          rcases List.mem_cons.mp h2 with h3 | h3
          · exact absurd h3 (by simp)
          rcases List.mem_cons.mp h3 with h4 | h4
          · have hpq : p = q ∧ m = 493 := by
              constructor <;> injection h4 <;> simp_all
            exact ⟨hpq.2, by rw [hpq.1, hst]; simp⟩
          · exact absurd h4 (by simp)


theorem ensureDirs_inv (rem : Remote) :
    ∀ (ps seen : List (List Char)),
      (∀ p ∈ statTargets (ensureDirs rem seen ps).evs, p ∉ seen) ∧
      (statTargets (ensureDirs rem seen ps).evs).Nodup ∧
      (∀ p ∈ seen, p ∈ (ensureDirs rem seen ps).seen) ∧
      ((ensureDirs rem seen ps).err = none →
        ∀ p ∈ statTargets (ensureDirs rem seen ps).evs,
          p ∈ (ensureDirs rem seen ps).seen) ∧
      List.Sublist (mkdirTargets (ensureDirs rem seen ps).evs)
        (statTargets (ensureDirs rem seen ps).evs) := by
  intro ps
  induction ps with
  | nil =>
    intro seen
    exact ⟨by simp [ensureDirs, statTargets], by simp [ensureDirs, statTargets],
      fun p h => h, by simp [ensureDirs, statTargets],
      by simp [ensureDirs, statTargets, mkdirTargets]⟩
  | cons q rest ih =>
    intro seen
    simp only [ensureDirs]
    split
    · exact ih seen
    · rename_i hguard
      have hqseen : q ∉ seen := by
        intro hq
        exact hguard (by simp [hq])
      cases hst : rem.stat q with
      | none =>
        obtain ⟨ih1, ih2, ih3, ih4, ih5⟩ := ih (q :: seen)
        have hstats : statTargets (Ev.statEv q ::
            (ensureDirs rem (q :: seen) rest).evs) =
            q :: statTargets (ensureDirs rem (q :: seen) rest).evs := rfl
        refine ⟨?_, ?_, ?_, ?_, ?_⟩
        · intro p hp
          rw [hstats] at hp
          rcases List.mem_cons.mp hp with h | h
          · rw [h]; exact hqseen
          · intro hmem
            exact ih1 p h (List.mem_cons_of_mem q hmem)
        · rw [hstats]
          refine List.Nodup.cons ?_ ih2
          intro hq
          exact ih1 q hq (List.mem_cons_self q seen)
        · intro p hp
          exact ih3 p (List.mem_cons_of_mem q hp)
        · intro herr p hp
          rw [hstats] at hp
          rcases List.mem_cons.mp hp with h | h
          · rw [h]
            exact ih3 q (List.mem_cons_self q seen)
          · exact ih4 herr p h
        · rw [hstats]
          exact (ih5.trans (List.sublist_cons_self q _))
      | some k1 =>
        cases hmk : rem.mkdir q with
        | none =>
          obtain ⟨ih1, ih2, ih3, ih4, ih5⟩ := ih (q :: seen)
          have hstats : statTargets (Ev.statEv q :: Ev.mkdirEv q 493 ::
              (ensureDirs rem (q :: seen) rest).evs) =
              q :: statTargets (ensureDirs rem (q :: seen) rest).evs := rfl
          have hmks : mkdirTargets (Ev.statEv q :: Ev.mkdirEv q 493 ::
              (ensureDirs rem (q :: seen) rest).evs) =
              q :: mkdirTargets (ensureDirs rem (q :: seen) rest).evs := rfl
          refine ⟨?_, ?_, ?_, ?_, ?_⟩
          · intro p hp
            rw [hstats] at hp
            rcases List.mem_cons.mp hp with h | h
            · rw [h]; exact hqseen
            · intro hmem
              exact ih1 p h (List.mem_cons_of_mem q hmem)
          · rw [hstats]
            refine List.Nodup.cons ?_ ih2
            intro hq
            exact ih1 q hq (List.mem_cons_self q seen)
          · intro p hp
            exact ih3 p (List.mem_cons_of_mem q hp)
          · intro herr p hp
            rw [hstats] at hp
            rcases List.mem_cons.mp hp with h | h
            · rw [h]
              exact ih3 q (List.mem_cons_self q seen)
            · exact ih4 herr p h
          · rw [hstats, hmks]
            exact List.Sublist.cons₂ q ih5
        | some k2 =>
          refine ⟨?_, ?_, fun p h => h, ?_, ?_⟩
          · intro p hp
            have hp2 : p ∈ [q] := hp
            rw [List.mem_singleton.mp hp2]
            exact hqseen
          · exact List.nodup_singleton q
          · intro herr
            have : (some k2 : Option ErrKind) = none := herr
            exact absurd this (by simp)
          · have h1 : mkdirTargets [Ev.statEv q, Ev.mkdirEv q 493] = [q] := rfl
            have h2 : statTargets [Ev.statEv q, Ev.mkdirEv q 493] = [q] := rfl
            exact h1 ▸ h2 ▸ List.Sublist.refl [q]


theorem procEntry_shape (rem : Remote) (base : List Char) (seen : List (List Char))
    (ent : Entry) :
    ((procEntry rem base seen ent).evs = [] ∧ (procEntry rem base seen ent).seen = seen) ∨
    (∃ extra : List Ev,
      (procEntry rem base seen ent).evs =
        (ensureDirs rem seen (ancestorsOf base ent.path)).evs ++ extra ∧
      statTargets extra = [] ∧ mkdirTargets extra = [] ∧
      (procEntry rem base seen ent).seen =
        (ensureDirs rem seen (ancestorsOf base ent.path)).seen ∧
      ((procEntry rem base seen ent).err = none →
        (ensureDirs rem seen (ancestorsOf base ent.path)).err = none)) := by
  simp only [procEntry]
  split
  · left
    exact ⟨rfl, rfl⟩
  · right
    split
    · exact ⟨[], by simp, rfl, rfl, rfl, fun h => Option.noConfusion h⟩
    · rename_i hd
      split
      · exact ⟨[Ev.scpOpenEv (upJoin base ent.path) 420 ent.size], rfl, rfl, rfl, rfl,
          fun h => Option.noConfusion h⟩
      · split
        · exact ⟨[Ev.scpOpenEv (upJoin base ent.path) 420 ent.size, Ev.copyEv ent.actual],
            rfl, rfl, rfl, rfl, fun h => Option.noConfusion h⟩
        · split
          · exact ⟨[Ev.scpOpenEv (upJoin base ent.path) 420 ent.size, Ev.copyEv ent.actual],
              rfl, rfl, rfl, rfl, fun _ => hd⟩
          · exact ⟨[Ev.scpOpenEv (upJoin base ent.path) 420 ent.size, Ev.copyEv ent.actual],
              rfl, rfl, rfl, rfl, fun h => Option.noConfusion h⟩

theorem procEntry_inv (rem : Remote) (base : List Char) (seen : List (List Char))
    (ent : Entry) :
    (∀ p ∈ statTargets (procEntry rem base seen ent).evs, p ∉ seen) ∧
    (statTargets (procEntry rem base seen ent).evs).Nodup ∧
    (∀ p ∈ seen, p ∈ (procEntry rem base seen ent).seen) ∧
    ((procEntry rem base seen ent).err = none →
      ∀ p ∈ statTargets (procEntry rem base seen ent).evs,
        p ∈ (procEntry rem base seen ent).seen) ∧
    List.Sublist (mkdirTargets (procEntry rem base seen ent).evs)
      (statTargets (procEntry rem base seen ent).evs) := by
  rcases procEntry_shape rem base seen ent with ⟨h1, h2⟩ | ⟨extra, he, hs, hm, hsn, herr⟩
  · rw [h1, h2]
    exact ⟨by simp [statTargets_nil], by simp [statTargets_nil], fun p h => h,
      by simp [statTargets_nil], by simp [statTargets, mkdirTargets]⟩
  · obtain ⟨e1, e2, e3, e4, e5⟩ := ensureDirs_inv rem (ancestorsOf base ent.path) seen
    have hst : statTargets (procEntry rem base seen ent).evs =
        statTargets (ensureDirs rem seen (ancestorsOf base ent.path)).evs := by
      rw [he, statTargets_append, hs, List.append_nil]
    have hmk : mkdirTargets (procEntry rem base seen ent).evs =
        mkdirTargets (ensureDirs rem seen (ancestorsOf base ent.path)).evs := by
      rw [he, mkdirTargets_append, hm, List.append_nil]
    refine ⟨?_, ?_, ?_, ?_, ?_⟩
    · rw [hst]
      exact e1
    · rw [hst]
      exact e2
    · rw [hsn]
      exact e3
    · intro h p hp
      rw [hst] at hp
      rw [hsn]
      exact e4 (herr h) p hp
    · rw [hst, hmk]
      exact e5

theorem runPipe_inv (rem : Remote) (base : List Char) :
    ∀ (es : List Entry) (seen : List (List Char)),
      (∀ p ∈ statTargets (runPipe rem base es seen).1, p ∉ seen) ∧
      (statTargets (runPipe rem base es seen).1).Nodup ∧
      List.Sublist (mkdirTargets (runPipe rem base es seen).1)
        (statTargets (runPipe rem base es seen).1) := by
  intro es
  induction es with
  | nil =>
    intro seen
    exact ⟨by simp [runPipe, statTargets_nil], by simp [runPipe, statTargets_nil],
      by simp [runPipe, statTargets, mkdirTargets]⟩
  | cons e es ih =>
    intro seen
    obtain ⟨p1, p2, p3, p4, p5⟩ := procEntry_inv rem base seen e
    simp only [runPipe]
    cases hpe : (procEntry rem base seen e).err with
    | some k => exact ⟨p1, p2, p5⟩
    | none =>
      obtain ⟨r1, r2, r3⟩ := ih (procEntry rem base seen e).seen
      have hfst : ((procEntry rem base seen e).evs ++
          (runPipe rem base es (procEntry rem base seen e).seen).1,
          (runPipe rem base es (procEntry rem base seen e).seen).2).1 =
          (procEntry rem base seen e).evs ++
            (runPipe rem base es (procEntry rem base seen e).seen).1 := rfl
      refine ⟨?_, ?_, ?_⟩
      · intro p hp
        rw [hfst, statTargets_append] at hp
        rcases List.mem_append.mp hp with h | h
        · exact p1 p h
        · intro hps
          exact (r1 p h) (p3 p hps)
      · rw [hfst, statTargets_append, List.nodup_append]
        refine ⟨p2, r2, ?_⟩
        intro p hl hr
        exact (r1 p hr) (p4 hpe p hl)
      · rw [hfst, statTargets_append, mkdirTargets_append]
        exact List.Sublist.append p5 r3

theorem procEntry_base_indep (rem : Remote) (base base2 : List Char)
    (seen : List (List Char)) (ent : Entry) (h : startsWithSlash ent.path = true) :
    procEntry rem base seen ent = procEntry rem base2 seen ent := by
  have hj : ∀ b : List Char, upJoin b ent.path = ent.path := by
    intro b
    rw [upJoin, if_pos h]
  simp only [procEntry, ancestorsOf, hj]


/-! ## Claim theorems -/

/-- C1, counterexample: contrary to the claim, the pipeline never computes a
`.tmp` scratch path: a container with no file entries issues no remote call at
all (no directory is materialized), and even in the one-file scenario under
base `/home/u` no stat or mkdir ever targets `/home/u/.tmp`. -/
theorem claim_C1_cx :
    (runPipe remAllOk "/home/u".toList [] []).1 = [] ∧
    Ev.statEv "/home/u/.tmp".toList ∉ (runPipe remAllOk "/home/u".toList [entDemo] []).1 ∧
    Ev.mkdirEv "/home/u/.tmp".toList 493 ∉
      (runPipe remAllOk "/home/u".toList [entDemo] []).1 := by
  refine ⟨rfl, ?_, ?_⟩ <;> decide

/-- C1, amended: the pipeline performs no materialization before processing
container entries — a container with no file entries issues no remote calls
and reaches the completed state — and for the one-file scenario (`a/b/c.txt`
declaring 4096 bytes under base `/home/u`) the remote calls are exactly the
existence checks of `/`, `/home`, `/home/u`, `/home/u/a`, `/home/u/a/b` in
root-to-leaf order, one channel open for `/home/u/a/b/c.txt` announcing 4096
bytes, and a 4096-byte copy, reaching the completed state. -/
theorem claim_C1_amended :
    (∀ (rem : Remote) (base : List Char), runPipe rem base [] [] = ([], none)) ∧
    runPipe remAllOk "/home/u".toList [entDemo] [] =
      ([Ev.statEv "/".toList, Ev.statEv "/home".toList, Ev.statEv "/home/u".toList,
        Ev.statEv "/home/u/a".toList, Ev.statEv "/home/u/a/b".toList,
        Ev.scpOpenEv "/home/u/a/b/c.txt".toList 420 4096, Ev.copyEv 4096], none) :=
  ⟨fun _ _ => rfl, by decide⟩

/-- C2, counterexample: contrary to the claim, an already-exists failure from
the creation call is fatal (the run aborts with that error), and a
non-not-found failure of the existence check is not fatal — the code answers
it with a creation call and, if that succeeds, the run completes. -/
theorem claim_C2_cx :
    (runPipe remMkdirAE "/home/u".toList [entDemo] []).2 =
      some (PErr.remoteErr ErrKind.alreadyExists) ∧
    (runPipe remStatPD "/home/u".toList [entDemo] []).2 = none ∧
    Ev.mkdirEv "/".toList 493 ∈ (runPipe remStatPD "/home/u".toList [entDemo] []).1 := by
  refine ⟨?_, ?_, ?_⟩ <;> decide

/-- C2, amended: for every uncached ancestor, if the existence check fails
with any condition (the kind is never inspected) a creation call with fixed
mode `0o755` is issued; every failure of the creation call — already-exists
included — is fatal and aborts the materialization; a failure of the
existence check alone never aborts. -/
theorem claim_C2_amended :
    (∀ (rem : Remote) (ps seen : List (List Char)),
      (∀ p, rem.mkdir p = none) → (ensureDirs rem seen ps).err = none) ∧
    (∀ (rem : Remote) (ps seen : List (List Char)) (k : ErrKind),
      (ensureDirs rem seen ps).err = some k →
      ∃ p, rem.stat p ≠ none ∧ rem.mkdir p = some k) ∧
    (∀ (rem : Remote) (ps seen : List (List Char)) (p : List Char) (m : Nat),
      Ev.mkdirEv p m ∈ (ensureDirs rem seen ps).evs →
      m = 493 ∧ rem.stat p ≠ none) :=
  ⟨fun rem ps seen hmk => ensureDirs_err_none rem hmk ps seen,
   fun rem ps seen k h => ensureDirs_err_some rem ps seen k h,
   fun rem ps seen p m h => ensureDirs_mkdir_mem rem ps seen p m h⟩

theorem claim_C2_amended_witness :
    ((∀ p, remStatPD.mkdir p = none) ∧ (ensureDirs remStatPD [] [['a']]).err = none) ∧
    ((ensureDirs remMkdirAE [] [['a']]).err = some ErrKind.alreadyExists ∧
      ∃ p, remMkdirAE.stat p ≠ none ∧ remMkdirAE.mkdir p = some ErrKind.alreadyExists) ∧
    (Ev.mkdirEv ['a'] 493 ∈ (ensureDirs remMkdirAE [] [['a']]).evs ∧
      493 = 493 ∧ remMkdirAE.stat ['a'] ≠ none) :=
  ⟨⟨fun _ => rfl, claim_C2_amended.1 remStatPD [['a']] [] (fun _ => rfl)⟩,
   ⟨by decide, claim_C2_amended.2.1 remMkdirAE [['a']] [] ErrKind.alreadyExists (by decide)⟩,
   ⟨by decide, claim_C2_amended.2.2 remMkdirAE [['a']] [] ['a'] 493 (by decide)⟩⟩

/-- C3, counterexample: contrary to the claim, joining the bare root path with
the non-empty unrooted segment `a` yields `//a`, which has two adjacent
separators (an empty segment) and so violates the normalization invariant. -/
theorem claim_C3_cx :
    SimplePath.join (SimplePath.new "/".toList) "a".toList = "//a".toList ∧
    ¬ normalizedPath (SimplePath.join (SimplePath.new "/".toList) "a".toList) := by
  refine ⟨?_, ?_⟩ <;> decide

/-- C3, amended: every path produced by parse satisfies the normalization
invariant, and every join whose left operand satisfies the invariant and is
not the bare root separator also satisfies it; joining the bare root with a
non-empty unrooted operand is the one violating case. -/
theorem claim_C3_amended :
    (∀ r : List Char, normalizedPath (SimplePath.new r)) ∧
    (∀ (b r : List Char), normalizedPath b → b ≠ ['/'] →
      normalizedPath (SimplePath.join b r)) :=
  ⟨new_normalized, fun b r hb hroot => join_normalized r hb hroot⟩

theorem claim_C3_amended_witness :
    normalizedPath "/var/run".toList ∧ "/var/run".toList ≠ ['/'] ∧
    normalizedPath (SimplePath.new "//x//y".toList) ∧
    normalizedPath (SimplePath.join "/var/run".toList "test".toList) :=
  ⟨by decide, by decide, claim_C3_amended.1 "//x//y".toList,
   claim_C3_amended.2 "/var/run".toList "test".toList (by decide) (by decide)⟩

/-- C4, counterexample: contrary to the claim, a raw input beginning with the
recognized backslash separator does not parse to a rooted path: `\a` parses
to the unrooted path `a`. -/
theorem claim_C4_cx :
    isSepChar '\\' = true ∧ SimplePath.new ['\\', 'a'] = ['a'] ∧
    startsWithSlash (SimplePath.new ['\\', 'a']) = false := by
  refine ⟨rfl, ?_, ?_⟩ <;> decide

/-- C4, amended: parse yields a rooted path exactly when the raw input begins
with the canonical slash separator; a leading backslash does not mark the
result as rooted. -/
theorem claim_C4_amended :
    ∀ r : List Char, startsWithSlash (SimplePath.new r) = startsWithSlash r :=
  new_startsWithSlash

/-- C5: after the copy and the channel close succeed, a mismatch between the
copied byte count and the declared size makes the run fail with an error
carrying both counts, and no subsequent container entry contributes anything
to the run (the trace is exactly the failing entry's trace). -/
theorem claim_C5 : ∀ (rem : Remote) (base : List Char) (seen : List (List Char))
    (ent : Entry) (es : List Entry),
    ent.isFile = true → ent.actual ≠ ent.size →
    (ensureDirs rem seen (ancestorsOf base ent.path)).err = none →
    rem.scpOpen (upJoin base ent.path) = none →
    rem.scpClose (upJoin base ent.path) = none →
    runPipe rem base (ent :: es) seen =
      ((ensureDirs rem seen (ancestorsOf base ent.path)).evs ++
        [Ev.scpOpenEv (upJoin base ent.path) 420 ent.size, Ev.copyEv ent.actual],
       some (PErr.sizeMismatch ent.size ent.actual)) := by
  intro rem base seen ent es hfile hmis hdirs hopen hclose
  simp [runPipe, procEntry, hfile, hdirs, hopen, hclose, hmis]

theorem claim_C5_witness :
    entShort.isFile = true ∧ entShort.actual ≠ entShort.size ∧
    (ensureDirs remAllOk [] (ancestorsOf "/home/u".toList entShort.path)).err = none ∧
    remAllOk.scpOpen (upJoin "/home/u".toList entShort.path) = none ∧
    remAllOk.scpClose (upJoin "/home/u".toList entShort.path) = none ∧
    runPipe remAllOk "/home/u".toList [entShort, entDemo] [] =
      ((ensureDirs remAllOk [] (ancestorsOf "/home/u".toList entShort.path)).evs ++
        [Ev.scpOpenEv (upJoin "/home/u".toList entShort.path) 420 entShort.size,
         Ev.copyEv entShort.actual],
       some (PErr.sizeMismatch entShort.size entShort.actual)) :=
  ⟨rfl, by decide, by decide, rfl, rfl,
   claim_C5 remAllOk "/home/u".toList [] entShort [entDemo] rfl (by decide) (by decide)
     rfl rfl⟩

/-- C6: the ancestors of a parsed path are exactly the spec's leaf-to-root
sequence: for a rooted path, each ancestor obtained by dropping the trailing
segment, down to and including the bare root separator; for an unrooted path,
down to its first single segment, never emitting a root element; an
all-separator input gives the single root element and an empty input the
single empty-string element. -/
theorem claim_C6 :
    (∀ r : List Char,
      SimplePath.ancestors (SimplePath.new r) =
        ancExpected (startsWithSlash r) (SimplePath.split r)) ∧
    SimplePath.ancestors (SimplePath.new "////".toList) = ["/".toList] ∧
    SimplePath.ancestors (SimplePath.new "".toList) = ["".toList] ∧
    SimplePath.ancestors (SimplePath.new "/var/run/tmp/dir/".toList) =
      ["/var/run/tmp/dir".toList, "/var/run/tmp".toList, "/var/run".toList,
       "/var".toList, "/".toList] ∧
    SimplePath.ancestors (SimplePath.new "var/run/tmp/dir////".toList) =
      ["var/run/tmp/dir".toList, "var/run/tmp".toList, "var/run".toList, "var".toList] :=
  ⟨ancestors_new_eq,
   by rw [ancestors_new_eq]; decide,
   by rw [ancestors_new_eq]; decide,
   by rw [ancestors_new_eq]; decide,
   by rw [ancestors_new_eq]; decide⟩

/-- C7: within one sequential run, each distinct path is the target of at most
one remote existence check and at most one directory-creation call, however
many file entries share it: the stat targets and the mkdir targets of the
whole trace contain no duplicates. -/
theorem claim_C7 :
    ∀ (rem : Remote) (base : List Char) (es : List Entry),
      (statTargets (runPipe rem base es []).1).Nodup ∧
      (mkdirTargets (runPipe rem base es []).1).Nodup := by
  intro rem base es
  obtain ⟨-, h2, h3⟩ := runPipe_inv rem base es []
  exact ⟨h2, h2.sublist h3⟩

/-- C8: parse is idempotent — parsing the string produced by parse yields the
same path, for every raw input, including inputs mixing both separators. -/
theorem claim_C8 :
    ∀ r : List Char, SimplePath.new (SimplePath.new r) = SimplePath.new r :=
  new_idem

/-- C9: join has absolute-override semantics — whenever the right operand
begins with the canonical separator, the join equals the parse of the right
operand and the left operand is discarded entirely. -/
theorem claim_C9 : ∀ (b r : List Char), startsWithSlash r = true →
    SimplePath.join b r = SimplePath.new r := by
  intro b r h
  have h2 : startsWithSlash (SimplePath.new r) = true := by
    rw [new_startsWithSlash]
    exact h
  rw [SimplePath.join]
  simp only [h2, if_true]

theorem claim_C9_witness :
    startsWithSlash "/test".toList = true ∧
    SimplePath.join "/var/run".toList "/test".toList = SimplePath.new "/test".toList :=
  ⟨by decide, claim_C9 "/var/run".toList "/test".toList (by decide)⟩

/-- C10: for a regular-file entry whose stored path is absolute, the computed
destination is the entry's own path with the configured base discarded, so the
whole processing of that entry — ancestor materialization included — is
independent of the base directory. -/
theorem claim_C10 :
    (∀ (base p : List Char), startsWithSlash p = true → upJoin base p = p) ∧
    (∀ (rem : Remote) (base base2 : List Char) (seen : List (List Char)) (ent : Entry),
      startsWithSlash ent.path = true →
      procEntry rem base seen ent = procEntry rem base2 seen ent) :=
  ⟨fun base p h => by rw [upJoin, if_pos h],
   fun rem base base2 seen ent h => procEntry_base_indep rem base base2 seen ent h⟩

theorem claim_C10_witness :
    startsWithSlash entAbs.path = true ∧
    upJoin "/home/u".toList entAbs.path = entAbs.path ∧
    procEntry remAllOk "/home/u".toList [] entAbs =
      procEntry remAllOk "/srv".toList [] entAbs :=
  ⟨by decide, claim_C10.1 "/home/u".toList entAbs.path (by decide),
   claim_C10.2 remAllOk "/home/u".toList "/srv".toList [] entAbs (by decide)⟩


end Bakelite
